import Mathlib

/-!
Verification development for the bog static-site generator.

The Go sources are shallowly embedded below:
* the staleness decision of the generate-phase worker (`fileExists` from
  io.go plus the worker body in main) and the mtime-based check of the
  historical `processPage` variant;
* the ordered collector goroutine (`sort.Search` plus slice insertion);
* the `multierr.MultiErr` task group (`Go`/`Wait`);
* metadata handling from pageinfo.go (`getMeta` over the parsed tree,
  `defaultMeta` back-fill, the variadic `PageInfo.getMeta` accessor) with
  `RemoveExt`, `filepath.Ext` and `filepath.Base`;
* the `errWriter` from the markdown package and `markdown.Render`;
* the two-phase main pipeline (load phase in memory, generate phase
  writing destination files).

Machine integers do not overflow in any of the embedded code paths
(slice indices are bounded by slice lengths), so `Nat`/`Int` are used
directly.  Errors are drawn from `Nat`; collaborator packages (the
markdown parser, the HTML comment scanner, the YAML decoder, the
template engine, the filesystem) are abstracted as function parameters,
exactly at the boundaries the source calls them.
-/

/-! ## Staleness decision (io.go `fileExists`, main generate worker,
    historical `processPage`) -/

/-- Result of `os.Stat` on the destination path: the file exists with a
modification time, the file does not exist, or `stat` failed for another
reason. -/
inductive StatResult where
  | ok (modTime : Int)
  | notExist
  | statErr (e : Nat)
deriving DecidableEq

/-- io.go `fileExists`:
`_, err := os.Stat(path); ok := !os.IsNotExist(err);
if ok && (err != nil) { return ok, err }; return ok, nil`. -/
def fileExists (st : StatResult) : Bool × Option Nat :=
  match st with
  | .ok _ => (true, none)
  | .notExist => (false, none)
  | .statErr e => (true, some e)

/-- Outcome of the per-document rebuild check: write the destination,
skip it, or surface an error. -/
inductive RebuildDecision where
  | rebuild
  | skip
  | err (e : Nat)
deriving DecidableEq

/-- The generate-phase worker's check (main, part_002 lines 222-227):
`ok, err := fileExists(path); if ok || (err != nil) { return err }`;
returning a nil error without writing is a skip, falling through is a
rebuild. -/
def workerRebuildCheck (dstStat : StatResult) : RebuildDecision :=
  let fe := fileExists dstStat
  if fe.1 || fe.2.isSome then
    match fe.2 with
    | none => .skip
    | some e => .err e
  else .rebuild

/-- The historical `processPage` staleness check (bog.go lines 270-276):
`dstinfo, err := os.Stat(dst); if (err != nil) && !os.IsNotExist(err)
{ return error }; if (dstinfo != nil) && dstinfo.ModTime().After(srcInfo.ModTime())
{ skip } ; rebuild`. -/
def processPageRebuildCheck (srcModTime : Int) (dstStat : StatResult) : RebuildDecision :=
  match dstStat with
  | .statErr e => .err e
  | .notExist => .rebuild
  | .ok t => if t > srcModTime then .skip else .rebuild

/-- Modelled from the spec's words (§4.3 `shouldRebuild`): stat the
destination; if it does not exist, rebuild; if stat fails for any other
reason, surface the error; if it exists and its modification time is
strictly after the source's, skip; otherwise rebuild. -/
def specShouldRebuild (srcModTime : Int) (dstStat : StatResult) : RebuildDecision :=
  match dstStat with
  | .notExist => .rebuild
  | .statErr e => .err e
  | .ok t => if t > srcModTime then .skip else .rebuild

/-! ## Ordered collector (main collector goroutine, part_002 lines 152-164) -/

/-- One build result as seen by the collector: its resolved `"time"`
metadata value and an identifier distinguishing the document. -/
structure Page where
  time : Int
  id : Nat
deriving DecidableEq

/-- Default used for out-of-range slice reads in the model; Go's
`sort.Search` only probes indices inside `[0, n)`, so this value is
never consulted by `collectorInsert`. -/
def dfltPage : Page := ⟨0, 0⟩

/-- The loop of Go's `sort.Search`:
`i, j := 0, n; for i < j { h := (i+j)/2; if !f(h) { i = h+1 } else { j = h } };
return i`.  The loop shrinks `j - i` on every iteration, so a fuel of
`j - i` (here any fuel at least `j - i`) reproduces it exactly. -/
def searchLoop (f : Nat → Bool) : Nat → Nat → Nat → Nat
  | 0, i, _ => i
  | fuel + 1, i, j =>
    if i < j then
      let m := (i + j) / 2
      if f m then searchLoop f fuel i m else searchLoop f fuel (m + 1) j
    else i

/-- Go's `sort.Search(n, f)`. -/
def sortSearch (n : Nat) (f : Nat → Bool) : Nat :=
  searchLoop f n 0 n

/-- One collector step (the body of `for page := range pagec`):
`i := sort.Search(len(pages), func(i int) bool { return
page.Meta["time"].(time.Time).After(pages[i].Meta["time"].(time.Time)) });
pages = append(pages, nil); copy(pages[i+1:], pages[i:]); pages[i] = page`. -/
def collectorInsert (pages : List Page) (p : Page) : List Page :=
  let i := sortSearch pages.length (fun k => decide (p.time > (pages.getD k dfltPage).time))
  pages.take i ++ p :: pages.drop i

/-- The collector goroutine consuming every arriving build result, in
arrival order, starting from the empty sequence. -/
def collectorRun (arrivals : List Page) : List Page :=
  arrivals.foldl collectorInsert []

/-- Sorted strictly by descending time (newest first). -/
def sortedDesc (l : List Page) : Prop :=
  l.Pairwise fun a b => a.time > b.time

/-! ## Task group (multierr.MultiErr, part_004) -/

/-- The mutable state of a `MultiErr`: the lock-protected error list and
the cancellation flag (`cancel` has been called). -/
structure MultiErrSt where
  errs : List Nat
  canceled : Bool
deriving DecidableEq

/-- A fresh `MultiErr` from `WithContext`. -/
def multiErrInit : MultiErrSt := ⟨[], false⟩

/-- A unit of work spawned by `Go` returning `r`: a non-nil error is
appended to the list under the mutex and the context is canceled. -/
def unitReturn (s : MultiErrSt) (r : Option Nat) : MultiErrSt :=
  match r with
  | none => s
  | some e => { errs := s.errs ++ [e], canceled := true }

/-- All spawned units returning, in some arrival order `rs` (the mutex
serializes the appends, so the list records arrival order). -/
def runUnits (rs : List (Option Nat)) : MultiErrSt :=
  rs.foldl unitReturn multiErrInit

/-- `Wait` after every unit has returned: snapshot the error list, clear
it, cancel the context, return the snapshot. -/
def waitSnapshot (s : MultiErrSt) : List Nat × MultiErrSt :=
  (s.errs, { errs := [], canceled := true })

/-! ## Metadata values and default back-fill (pageinfo.go `defaultMeta`,
    `LoadPage` lines 67-73, path.go `RemoveExt`) -/

/-- A loosely typed metadata value as decoded from YAML: strings,
timestamps, nested string-keyed mappings, and other values (numbers,
booleans, sequences) kept opaque.  Nested mappings are association
lists, mirroring Go's `map[string]interface{}` with its unique keys. -/
inductive MetaVal where
  | str (s : String)
  | time (t : Int)
  | map (m : List (String × MetaVal))
  | other (tag : Nat)

/-- A document's metadata mapping (`map[string]interface{}`). -/
abbrev Meta : Type := List (String × MetaVal)

/-- The empty metadata mapping, `make(map[string]interface{})`
(non-nil in Go). -/
def metaEmpty : Meta := []

/-- Go map read `m[k]`. -/
def metaLookup (k : String) : Meta → Option MetaVal
  | [] => none
  | (k2, v) :: rest => if k2 = k then some v else metaLookup k rest

/-- Go map write `m[k] = v`: replace the binding if present, add it
otherwise. -/
def metaInsert (k : String) (v : MetaVal) : Meta → Meta
  | [] => [(k, v)]
  | (k2, v2) :: rest => if k2 = k then (k, v) :: rest else (k2, v2) :: metaInsert k v rest

/-- The result of `os.Stat` on the source file, as used by
`defaultMeta`: `Name()` (a base name) and `ModTime()`. -/
structure FileInfo where
  name : String
  modTime : Int

/-- `filepath.Ext`: the suffix beginning at the final dot in the final
path element, empty if there is no dot.  The scan runs from the end of
the path and stops at a path separator, exactly as in Go; the model
works on the reversed character list, accumulating the scanned suffix. -/
def filepathExtCore : List Char → List Char → List Char
  | [], _ => []
  | c :: rest, acc =>
    if c = '/' then []
    else if c = '.' then '.' :: acc
    else filepathExtCore rest (c :: acc)

/-- `filepath.Ext path`. -/
def filepathExt (path : String) : String :=
  String.mk (filepathExtCore path.data.reverse [])

/-- path.go `RemoveExt`: `ext := filepath.Ext(path);
return path[:len(path)-len(ext)]`.  The extension is a character-level
suffix of the path, so dropping its length from the end splits at the
same boundary as Go's byte slicing. -/
def RemoveExt (path : String) : String :=
  String.mk (path.data.take (path.data.length - (filepathExt path).data.length))

/-- `filepath.Base` (Unix): `"."` for the empty path, trailing slashes
trimmed, everything up to the final slash dropped, `"/"` if nothing
remains. -/
def filepathBase (path : String) : String :=
  if path = "" then "."
  else
    let p := (path.data.reverse.dropWhile (fun c => c = '/')).reverse
    let q := (p.reverse.takeWhile (fun c => c ≠ '/')).reverse
    if q.isEmpty then "/" else String.mk q

/-- `defaultMeta["title"]`: `RemoveExt(filepath.Base(file.Name()))`. -/
def deriveTitle (name : String) : String :=
  RemoveExt (filepathBase name)

/-- The default back-fill loop of `LoadPage`:
`for k, f := range defaultMeta { if _, ok := meta[k]; ok { continue };
meta[k] = f(inputInfo) }` with `defaultMeta` holding `"title"` and
`"time"`.  Go iterates the map in unspecified order; the two keys are
distinct, so the two conditional inserts commute and a fixed order is
faithful. -/
def backfill (meta : Meta) (info : FileInfo) : Meta :=
  let m1 :=
    if (metaLookup "title" meta).isSome then meta
    else metaInsert "title" (.str (deriveTitle info.name)) meta
  if (metaLookup "time" m1).isSome then m1
  else metaInsert "time" (.time info.modTime) m1

/-! ## The variadic accessor `PageInfo.getMeta` (pageinfo.go lines 126-144) -/

/-- Result of a call to `PageInfo.getMeta`: the Go function either
panics (zero keys) or returns an `interface{}` that may be nil
(modelled by `Option MetaVal`).  The comma-ok type assertion in its
loop never panics. -/
inductive GetRes where
  | panicked
  | val (v : Option MetaVal)

/-- pageinfo.go `PageInfo.getMeta`: panic on zero keys; while more than
one key remains, assert the current value to a nested mapping
(comma-ok, returning nil on failure or absence) and descend; finally
read the last key. -/
def PageInfo.getMeta (meta : Meta) : List String → GetRes
  | [] => .panicked
  | [k] => .val (metaLookup k meta)
  | k :: k2 :: rest =>
    match metaLookup k meta with
    | some (.map next) => PageInfo.getMeta next (k2 :: rest)
    | _ => .val none

/-- One step of the spec's description of the accessor: from the current
value, descend through a nested mapping by one key, nil otherwise. -/
def descendStep (acc : Option MetaVal) (k : String) : Option MetaVal :=
  match acc with
  | some (.map m) => metaLookup k m
  | _ => none

/-- Modelled from the spec's words: the value reached by descending the
nested mappings key by key, nil whenever an intermediate key is absent
or its value is not a nested string-keyed mapping. -/
def specLookupPath (meta : Meta) (keys : List String) : Option MetaVal :=
  match keys with
  | [] => none
  | k :: rest => rest.foldl descendStep (metaLookup k meta)

/-! ## Metadata extraction from the parsed tree (pageinfo.go `getMeta`,
    lines 172-228) -/

/-- `bytes.HasPrefix(s, p)` at the character level (the only prefix
used is the four ASCII bytes `"meta"`, for which bytes and characters
coincide). -/
def bytesHasPrefix (p s : String) : Bool :=
  List.isPrefixOf p.data s.data

/-- `comment[4:]`: the comment with the four-byte `"meta"` prefix
stripped. -/
def commentPayload (c : String) : String :=
  String.mk (c.data.drop 4)

/-- Node types of the blackfriday tree; only `HTMLBlock` is
discriminated by `getMeta`. -/
inductive MdType where
  | htmlBlock
  | document
  | other (tag : Nat)
deriving DecidableEq

/-- A blackfriday node in its native linked shape: type, literal bytes,
first child, next sibling (`nil` closes a sibling chain).  A parsed
document is represented by the `Document` root's chain of children; the
root itself, which is never an `HTMLBlock` and is never unlinked, is
left implicit, so `Node.Unlink` on any represented node has a parent
and faithfully drops it from its chain. -/
inductive BNode where
  | nil
  | node (ty : MdType) (lit : String) (firstChild : BNode) (next : BNode)
deriving DecidableEq

/-- The walk state shared by the `getMeta` closure: the metadata map
being decoded into and the captured `werr`. -/
structure GMSt where
  meta : Meta
  werr : Option Nat

/-- The composition of `blackfriday.Node.Walk` with the visitor of
pageinfo.go `getMeta`, threading `(state, terminated, rewritten chain)`.

The visitor: on a non-entering visit or a non-`HTMLBlock` node it
returns `GoToNext` (children then siblings are walked; leaving visits
return `GoToNext` and are dropped here).  On an `HTMLBlock` it parses
the literal and scans for the first embedded comment — `html.Parse` and
`findComment` cannot fail on an in-memory reader, so the pair is
abstracted as `comment : String → Option String`.  A missing comment or
one without the `"meta"` prefix (`bytes.HasPrefix(nil, ...)` is false)
yields `SkipChildren`.  Otherwise `yaml.Unmarshal(comment[4:], &meta)`
decodes into the current map (`decode`, taking the map it merges into);
a decode error records `werr` and terminates, success optionally
unlinks the node and terminates. -/
def gmWalk (comment : String → Option String) (decode : String → Meta → Except Nat Meta)
    (unlink : Bool) : GMSt → BNode → GMSt × Bool × BNode
  | s, .nil => (s, false, .nil)
  | s, .node ty lit fc nx =>
    if ty = MdType.htmlBlock then
      match comment lit with
      | some c =>
        if bytesHasPrefix "meta" c then
          match decode (commentPayload c) s.meta with
          | .error e => ({ s with werr := some e }, true, .node ty lit fc nx)
          | .ok m =>
            if unlink then ({ s with meta := m }, true, nx)
            else ({ s with meta := m }, true, .node ty lit fc nx)
        else
          let r := gmWalk comment decode unlink s nx
          (r.1, r.2.1, .node ty lit fc r.2.2)
      | none =>
        let r := gmWalk comment decode unlink s nx
        (r.1, r.2.1, .node ty lit fc r.2.2)
    else
      let r := gmWalk comment decode unlink s fc
      if r.2.1 then (r.1, true, .node ty lit r.2.2 nx)
      else
        let r2 := gmWalk comment decode unlink r.1 nx
        (r2.1, r2.2.1, .node ty lit r.2.2 r2.2.2)

/-- The result of pageinfo.go `getMeta`: the decoded mapping, the
captured walk error, and the (possibly detached-from) tree. -/
structure GMOut where
  meta : Meta
  werr : Option Nat
  tree : BNode

/-- pageinfo.go `getMeta(node, unlink)`: start from the empty map, walk
the tree, return map, error and tree. -/
def getMeta (comment : String → Option String) (decode : String → Meta → Except Nat Meta)
    (unlink : Bool) (t : BNode) : GMOut :=
  let r := gmWalk comment decode unlink ⟨metaEmpty, none⟩ t
  ⟨r.1.meta, r.1.werr, r.2.2⟩

/-- The comment literal of the first candidate metadata block in
walk (document) order: the first `HTMLBlock` whose embedded comment
carries the `"meta"` prefix, where children of `HTMLBlock` nodes are
skipped exactly as the walk skips them. -/
def firstCandLit (comment : String → Option String) : BNode → Option String
  | .nil => none
  | .node ty lit fc nx =>
    if ty = MdType.htmlBlock then
      match comment lit with
      | some c => if bytesHasPrefix "meta" c then some c else firstCandLit comment nx
      | none => firstCandLit comment nx
    else
      match firstCandLit comment fc with
      | some c => some c
      | none => firstCandLit comment nx

/-- Removal of exactly the first candidate metadata block (in walk
order) from the tree; every other node is rebuilt unchanged. -/
def rmFirstCand (comment : String → Option String) : BNode → BNode
  | .nil => .nil
  | .node ty lit fc nx =>
    if ty = MdType.htmlBlock then
      match comment lit with
      | some c =>
        if bytesHasPrefix "meta" c then nx
        else .node ty lit fc (rmFirstCand comment nx)
      | none => .node ty lit fc (rmFirstCand comment nx)
    else
      if (firstCandLit comment fc).isSome then .node ty lit (rmFirstCand comment fc) nx
      else .node ty lit fc (rmFirstCand comment nx)

/-! ## The body-pass error writer (markdown package, part_009) -/

/-- The mutable state of an `errWriter`: how many writes have been
forwarded to the underlying writer, and the stored first error. -/
structure EW where
  ucalls : Nat
  err : Option Nat
deriving DecidableEq

/-- markdown `errWriter.Write`: if an error is stored, return
`(0, err)` without touching the underlying writer; otherwise forward
the write and store whatever error the underlying writer reports.  The
underlying writer's behavior is an oracle `u` giving the
`(n, err)` result of its `k`-th `Write` call. -/
def ewWrite (u : Nat → Nat × Option Nat) (s : EW) (_ : String) : EW × Nat × Option Nat :=
  match s.err with
  | some e => (s, 0, some e)
  | none =>
    let r := u s.ucalls
    ({ ucalls := s.ucalls + 1, err := r.2 }, r.1, r.2)

/-- The sequence of `Write` calls issued through one `errWriter` (by
`RenderHeader`, the `RenderNode` walk and `RenderFooter`), threaded
over the state. -/
def ewRun (u : Nat → Nat × Option Nat) (ws : List String) (s : EW) : EW :=
  ws.foldl (fun s d => (ewWrite u s d).1) s

/-- markdown `Render`: run every write of the render through a fresh
`errWriter` and return `ew.err`. -/
def renderResult (u : Nat → Nat × Option Nat) (ws : List String) : Option Nat :=
  (ewRun u ws ⟨0, none⟩).err

/-- Modelled from the spec's words: the error of the first underlying
write that failed, scanning call indices `c, c+1, ...` for `m` calls;
none if no write failed. -/
def firstErrFrom (u : Nat → Nat × Option Nat) (c : Nat) : Nat → Option Nat
  | 0 => none
  | m + 1 =>
    match (u c).2 with
    | some e => some e
    | none => firstErrFrom u (c + 1) m

/-! ## The two-phase pipeline and destination writes (main, part_002;
    pageinfo.go `LoadPage`/`render`/`Execute`) -/

/-- A filesystem effect on the destination directory: creating a file
or writing one streamed chunk to it. -/
inductive FsOp where
  | create (path : String)
  | write (path : String) (chunk : String)
deriving DecidableEq

/-- One input document: an identifier and its pre-computed destination
path (`filepath.Join(flags.Output, page.Output())`). -/
structure DocSpec where
  id : Nat
  dst : String
deriving DecidableEq

/-- `PageInfo.render` inside `LoadPage`: render the markdown body into
a pooled buffer, parse that text as a template, execute it into the
buffer — all in memory.  The three collaborator calls are abstracted as
`mdRender`, `tmplParse` (returning a template handle) and `tmplExec`;
the first failure aborts and is returned. -/
def renderPage (mdRender : Nat → Except Nat String) (tmplParse : String → Except Nat Nat)
    (tmplExec : Nat → Except Nat String) (d : Nat) : Except Nat String :=
  match mdRender d with
  | .error e => .error e
  | .ok body =>
    match tmplParse body with
    | .error e => .error e
    | .ok t => tmplExec t

/-- One generate-phase worker (main, part_002 lines 221-241) for a page
whose fully rendered in-memory content is `content`: check
`fileExists`, return early on existence or stat error, `os.Create` the
destination, then stream `page.Execute` (the page template applied to
the in-memory content) into the file.  `pageWrap content` gives the
chunks the template engine emits and its error; on a mid-execution
failure the chunks written so far are on disk. -/
def genWorker (dstStat : StatResult) (createRes : Option Nat)
    (pageWrap : String → List String × Option Nat) (dst content : String) :
    List FsOp × Option Nat :=
  let fe := fileExists dstStat
  if fe.1 || fe.2.isSome then ([], fe.2)
  else
    match createRes with
    | some e => ([], some e)
    | none =>
      let pw := pageWrap content
      (FsOp.create dst :: pw.1.map (FsOp.write dst), pw.2)

/-- The destination-file operations performed for one document during
the generate phase (empty for a document whose load failed — such a
run never reaches the generate phase, see `runPipeline`). -/
def docTrace (load : Nat → Except Nat String) (dstStat : String → StatResult)
    (createRes : String → Option Nat) (pageWrap : String → List String × Option Nat)
    (d : DocSpec) : List FsOp :=
  match load d.id with
  | .error _ => []
  | .ok c => (genWorker (dstStat d.dst) (createRes d.dst) pageWrap d.dst c).1

/-- The load-phase errors collected by the first task group
(`errs := eg.Wait()`). -/
def loadPhaseErrs (load : Nat → Except Nat String) (docs : List DocSpec) : List Nat :=
  docs.filterMap fun d =>
    match load d.id with
    | .error e => some e
    | .ok _ => none

/-- The destination-file operations of a whole run of main: if the load
phase produced any error the process exits before the generate phase
(`if len(errs) > 0 { printErrors(...); os.Exit(1) }`) and nothing is
written; otherwise every page worker runs.  Each worker touches only
its own destination path, so concatenating the per-document traces
records all destination writes. -/
def runPipeline (load : Nat → Except Nat String) (docs : List DocSpec)
    (dstStat : String → StatResult) (createRes : String → Option Nat)
    (pageWrap : String → List String × Option Nat) : List FsOp :=
  if loadPhaseErrs load docs = [] then
    docs.flatMap (docTrace load dstStat createRes pageWrap)
  else []

/-! ## Theorems -/

/-- The error list accumulated by the task group is the arrival-ordered
list of the non-nil unit results, on top of whatever was already
stored. -/
theorem foldl_unitReturn_errs (rs : List (Option Nat)) :
    ∀ s : MultiErrSt, (rs.foldl unitReturn s).errs = s.errs ++ rs.filterMap id := by
  induction rs with
  | nil => intro s; simp
  | cons r rs ih =>
    intro s
    cases r with
    | none => simpa [unitReturn] using ih s
    | some e =>
      simp only [List.foldl_cons, unitReturn, List.filterMap_cons_some, id]
      rw [ih]
      simp

/-- C1 (counterexample): with a destination whose modification time
equals the source's, the generate-phase rebuild check skips, while the
spec policy demands a rebuild. -/
theorem C1_counterexample :
    workerRebuildCheck (StatResult.ok 5) ≠ specShouldRebuild 5 (StatResult.ok 5) ∧
      workerRebuildCheck (StatResult.ok 5) = RebuildDecision.skip ∧
      specShouldRebuild 5 (StatResult.ok 5) = RebuildDecision.rebuild := by
  refine ⟨by decide, by decide, by decide⟩

/-- C1 (amended): the generate-phase worker rebuilds exactly when the
destination does not exist, skips whenever it exists regardless of
modification times, and surfaces stat errors other than non-existence;
the spec's modification-time policy is implemented verbatim only by the
historical `processPage` staleness check. -/
theorem C1_amended (src : Int) (d : StatResult) :
    workerRebuildCheck d =
      (match d with
        | .notExist => RebuildDecision.rebuild
        | .ok _ => RebuildDecision.skip
        | .statErr e => RebuildDecision.err e) ∧
      processPageRebuildCheck src d = specShouldRebuild src d := by
  cases d <;> simp [workerRebuildCheck, fileExists, processPageRebuildCheck, specShouldRebuild]

/-- C3: in any arrival order, `Wait` returns exactly the errors of the
failing units (all of them, in arrival order); with at least one
failure the list is non-empty and no longer than the unit count, and
the snapshot clears the internal list so a second `Wait` with no new
failures returns the empty list. -/
theorem C3_wait_collects_all (rs : List (Option Nat)) (h : ∃ r ∈ rs, r ≠ none) :
    (waitSnapshot (runUnits rs)).1 = rs.filterMap id ∧
      (waitSnapshot (runUnits rs)).1 ≠ [] ∧
      1 ≤ (waitSnapshot (runUnits rs)).1.length ∧
      (waitSnapshot (runUnits rs)).1.length ≤ rs.length ∧
      (waitSnapshot (waitSnapshot (runUnits rs)).2).1 = [] := by
  have hfm : (waitSnapshot (runUnits rs)).1 = rs.filterMap id := by
    simp [waitSnapshot, runUnits, foldl_unitReturn_errs, multiErrInit]
  have hne : rs.filterMap id ≠ [] := by
    obtain ⟨r, hr, hne⟩ := h
    cases r with
    | none => exact absurd rfl hne
    | some e =>
      have : e ∈ rs.filterMap id := by
        exact List.mem_filterMap.mpr ⟨some e, hr, rfl⟩
      exact List.ne_nil_of_mem this
  refine ⟨hfm, hfm ▸ hne, ?_, ?_, rfl⟩
  · rw [hfm]
    have := List.length_pos.mpr hne
    omega
  · rw [hfm]
    exact List.length_filterMap_le id rs

/-- Witness for C3 at a concrete arrival order. -/
theorem C3_witness :
    (∃ r ∈ ([none, some 3, some 5] : List (Option Nat)), r ≠ none) ∧
      (waitSnapshot (runUnits [none, some 3, some 5])).1 = [3, 5] := by
  refine ⟨by decide, ?_⟩
  rw [(C3_wait_collects_all [none, some 3, some 5] (by decide)).1]
  decide

/-- `collectorInsert` unfolded: insertion at the `sort.Search`
position. -/
theorem collectorInsert_eq (pages : List Page) (p : Page) :
    collectorInsert pages p =
      pages.take (sortSearch pages.length fun k => decide (p.time > (pages.getD k dfltPage).time)) ++
        p :: pages.drop (sortSearch pages.length fun k => decide (p.time > (pages.getD k dfltPage).time)) :=
  rfl

/-- Specification of the `sort.Search` loop: with fuel at least `j - i`
and a predicate monotone below `n`, the loop returns the boundary index
of the false/true partition inside `[i, j]`. -/
theorem searchLoop_spec (f : Nat → Bool) (n : Nat)
    (mono : ∀ a b, a ≤ b → b < n → f a = true → f b = true) :
    ∀ fuel i j, j - i ≤ fuel → i ≤ j → j ≤ n →
      i ≤ searchLoop f fuel i j ∧ searchLoop f fuel i j ≤ j ∧
        (∀ k, i ≤ k → k < searchLoop f fuel i j → f k = false) ∧
        (∀ k, searchLoop f fuel i j ≤ k → k < j → f k = true) := by
  intro fuel
  induction fuel with
  | zero =>
    intro i j h1 h2 h3
    simp only [searchLoop]
    refine ⟨le_refl _, h2, ?_, ?_⟩
    · intro k hk1 hk2
      exact absurd hk2 (by omega)
    · intro k hk1 hk2
      exact absurd hk2 (by omega)
  | succ fuel ih =>
    intro i j h1 h2 h3
    by_cases hij : i < j
    · have hm1 : i ≤ (i + j) / 2 := by omega
      have hm2 : (i + j) / 2 < j := by omega
      by_cases hf : f ((i + j) / 2) = true
      · have heq : searchLoop f (fuel + 1) i j = searchLoop f fuel i ((i + j) / 2) := by
          simp [searchLoop, hij, hf]
        rw [heq]
        obtain ⟨a1, a2, a3, a4⟩ := ih i ((i + j) / 2) (by omega) (by omega) (by omega)
        refine ⟨a1, by omega, a3, ?_⟩
        intro k hk1 hk2
        by_cases hkm : k < (i + j) / 2
        · exact a4 k hk1 hkm
        · exact mono ((i + j) / 2) k (by omega) (by omega) hf
      · have hf2 : f ((i + j) / 2) = false := by
          cases hfv : f ((i + j) / 2) with
          | true => exact absurd hfv hf
          | false => rfl
        have heq : searchLoop f (fuel + 1) i j = searchLoop f fuel ((i + j) / 2 + 1) j := by
          simp [searchLoop, hij, hf2]
        rw [heq]
        obtain ⟨a1, a2, a3, a4⟩ := ih ((i + j) / 2 + 1) j (by omega) (by omega) h3
        refine ⟨by omega, a2, ?_, a4⟩
        intro k hk1 hk2
        by_cases hkm : (i + j) / 2 + 1 ≤ k
        · exact a3 k hkm hk2
        · cases hfk : f k with
          | false => rfl
          | true =>
            have hup : f ((i + j) / 2) = true := mono k ((i + j) / 2) (by omega) (by omega) hfk
            rw [hf2] at hup
            exact Bool.noConfusion hup
    · have hieq : i = j := by omega
      subst hieq
      simp only [searchLoop, if_neg hij]
      refine ⟨le_refl _, le_refl _, ?_, ?_⟩
      · intro k hk1 hk2
        exact absurd hk2 (by omega)
      · intro k hk1 hk2
        exact absurd hk2 (by omega)

/-- Specification of `sort.Search` itself. -/
theorem sortSearch_spec (f : Nat → Bool) (n : Nat)
    (mono : ∀ a b, a ≤ b → b < n → f a = true → f b = true) :
    sortSearch n f ≤ n ∧ (∀ k, k < sortSearch n f → f k = false) ∧
      (∀ k, sortSearch n f ≤ k → k < n → f k = true) := by
  obtain ⟨a1, a2, a3, a4⟩ :=
    searchLoop_spec f n mono n 0 n (by omega) (by omega) (le_refl n)
  exact ⟨a2, fun k hk => a3 k (Nat.zero_le k) hk, a4⟩

/-- Each collector insertion is a permutation step: the new result is
added, nothing else changes. -/
theorem collectorInsert_perm (pages : List Page) (p : Page) :
    List.Perm (collectorInsert pages p) (p :: pages) := by
  rw [collectorInsert_eq]
  have h := @List.perm_middle Page p
    (pages.take (sortSearch pages.length fun k => decide (p.time > (pages.getD k dfltPage).time)))
    (pages.drop (sortSearch pages.length fun k => decide (p.time > (pages.getD k dfltPage).time)))
  rw [List.take_append_drop] at h
  exact h

/-- Inserting a result whose time differs from every stored time at the
binary-search position keeps the sequence sorted strictly by descending
time. -/
theorem collectorInsert_sorted (pages : List Page) (p : Page)
    (hs : sortedDesc pages) (hfresh : ∀ q ∈ pages, q.time ≠ p.time) :
    sortedDesc (collectorInsert pages p) := by
  unfold sortedDesc at hs ⊢
  rw [collectorInsert_eq]
  have mono : ∀ a b, a ≤ b → b < pages.length →
      (fun k => decide (p.time > (pages.getD k dfltPage).time)) a = true →
      (fun k => decide (p.time > (pages.getD k dfltPage).time)) b = true := by
    intro a b hab hb hfa
    simp only [decide_eq_true_eq] at hfa ⊢
    rcases Nat.eq_or_lt_of_le hab with heq | hlt
    · subst heq; exact hfa
    · have ha : a < pages.length := by omega
      rw [List.getD_eq_getElem pages dfltPage hb]
      rw [List.getD_eq_getElem pages dfltPage ha] at hfa
      have := List.pairwise_iff_getElem.mp hs a b ha hb hlt
      omega
  obtain ⟨hrn, hlow, hhigh⟩ :=
    sortSearch_spec (fun k => decide (p.time > (pages.getD k dfltPage).time)) pages.length mono
  set r := sortSearch pages.length fun k => decide (p.time > (pages.getD k dfltPage).time) with hrdef
  have hdropLt : ∀ b ∈ pages.drop r, p.time > b.time := by
    intro b hb
    obtain ⟨i2, hi2, hbeq⟩ := List.mem_iff_getElem.mp hb
    have hi2n : r + i2 < pages.length := by
      simp only [List.length_drop] at hi2
      omega
    have hfk := hhigh (r + i2) (by omega) hi2n
    simp only [decide_eq_true_eq] at hfk
    rw [List.getD_eq_getElem pages dfltPage hi2n] at hfk
    have hcast : (pages.drop r)[i2] = pages[r + i2] := List.getElem_drop ..
    rw [← hbeq, hcast]
    exact hfk
  have htakeGt : ∀ a ∈ pages.take r, a.time > p.time := by
    intro a ha
    obtain ⟨i2, hi2, haeq⟩ := List.mem_iff_getElem.mp ha
    have hi2r : i2 < r := by
      simp only [List.length_take] at hi2
      omega
    have hi2n : i2 < pages.length := by
      simp only [List.length_take] at hi2
      omega
    have hflow := hlow i2 hi2r
    simp only [decide_eq_false_iff_not] at hflow
    rw [List.getD_eq_getElem pages dfltPage hi2n] at hflow
    have hcast : (pages.take r)[i2] = pages[i2] := List.getElem_take ..
    have hane := hfresh a (List.mem_of_mem_take ha)
    rw [← haeq, hcast]
    rw [← haeq, hcast] at hane
    omega
  refine List.pairwise_append.mpr
    ⟨hs.sublist (List.take_sublist r pages),
     List.pairwise_cons.mpr ⟨hdropLt, hs.sublist (List.drop_sublist r pages)⟩, ?_⟩
  intro a ha b hb
  rcases List.mem_cons.mp hb with hbp | hbd
  · subst hbp
    exact htakeGt a ha
  · have h1 := htakeGt a ha
    have h2 := hdropLt b hbd
    omega

/-- Running the collector from any accumulator is a permutation of the
arrivals prepended to the accumulator. -/
theorem collectorFold_perm (rest : List Page) :
    ∀ acc : List Page, List.Perm (rest.foldl collectorInsert acc) (rest ++ acc) := by
  induction rest with
  | nil => intro acc; simp
  | cons p rest ih =>
    intro acc
    have h1 := ih (collectorInsert acc p)
    have h2 : List.Perm (rest ++ collectorInsert acc p) (rest ++ p :: acc) :=
      List.Perm.append_left rest (collectorInsert_perm acc p)
    have h3 : List.Perm (rest ++ p :: acc) (p :: (rest ++ acc)) := List.perm_middle
    simpa using (h1.trans h2).trans h3

/-- Folding arrivals with pairwise-fresh times into a sorted
accumulator keeps it sorted. -/
theorem collectorFold_sorted (rest : List Page) :
    ∀ acc : List Page, sortedDesc acc →
      (∀ p ∈ rest, ∀ q ∈ acc, q.time ≠ p.time) →
      (rest.map Page.time).Nodup →
      sortedDesc (rest.foldl collectorInsert acc) := by
  induction rest with
  | nil => intro acc hs _ _; simpa using hs
  | cons p rest ih =>
    intro acc hs hfresh hnd
    simp only [List.foldl_cons]
    have hsorted := collectorInsert_sorted acc p hs
      (fun q hq => hfresh p (List.mem_cons_self p rest) q hq)
    simp only [List.map_cons, List.nodup_cons] at hnd
    refine ih (collectorInsert acc p) hsorted ?_ hnd.2
    intro x hx q hq
    rcases List.mem_cons.mp ((collectorInsert_perm acc p).mem_iff.mp hq) with hq2 | hq2
    · subst hq2
      intro hcontra
      exact hnd.1 (hcontra ▸ List.mem_map_of_mem Page.time hx)
    · exact hfresh x (List.mem_cons_of_mem p hx) q hq2

/-- C2: for build results with pairwise-distinct times delivered in any
arrival order, the collector's final sequence is sorted strictly by
descending time and contains exactly the delivered results; each single
insertion at the binary-search position keeps a sorted sequence sorted
whenever the new time is fresh. -/
theorem C2_collector_sorted (arrivals : List Page) (h : (arrivals.map Page.time).Nodup) :
    sortedDesc (collectorRun arrivals) ∧
      List.Perm (collectorRun arrivals) arrivals ∧
      ∀ pages p, sortedDesc pages → (∀ q ∈ pages, q.time ≠ p.time) →
        sortedDesc (collectorInsert pages p) := by
  refine ⟨?_, ?_, fun pages p hs hf => collectorInsert_sorted pages p hs hf⟩
  · unfold collectorRun
    refine collectorFold_sorted arrivals [] ?_ (by simp) h
    unfold sortedDesc
    exact List.Pairwise.nil
  · unfold collectorRun
    simpa using collectorFold_perm arrivals []

/-- Witness for C2 at a concrete out-of-order arrival sequence. -/
theorem C2_witness :
    (((([⟨1, 0⟩, ⟨3, 1⟩, ⟨2, 2⟩] : List Page)).map Page.time).Nodup) ∧
      sortedDesc (collectorRun [⟨1, 0⟩, ⟨3, 1⟩, ⟨2, 2⟩]) :=
  ⟨by decide, (C2_collector_sorted [⟨1, 0⟩, ⟨3, 1⟩, ⟨2, 2⟩] (by decide)).1⟩

/-- Reading back the key just written into a Go map. -/
theorem metaLookup_metaInsert_self (k : String) (v : MetaVal) (m : Meta) :
    metaLookup k (metaInsert k v m) = some v := by
  induction m with
  | nil => simp [metaInsert, metaLookup]
  | cons hd tl ih =>
    obtain ⟨k2, v2⟩ := hd
    by_cases hk : k2 = k
    · subst hk
      simp [metaInsert, metaLookup]
    · simp [metaInsert, metaLookup, hk, ih]

/-- Writing one key into a Go map leaves every other key unchanged. -/
theorem metaLookup_metaInsert_other (k k2 : String) (v : MetaVal) (m : Meta)
    (hne : k2 ≠ k) : metaLookup k2 (metaInsert k v m) = metaLookup k2 m := by
  have hne2 : ¬ k = k2 := fun h => hne h.symm
  induction m with
  | nil => simp [metaInsert, metaLookup, hne2]
  | cons hd tl ih =>
    obtain ⟨k3, v3⟩ := hd
    by_cases hk : k3 = k
    · subst hk
      simp [metaInsert, metaLookup, hne2]
    · by_cases hk2 : k3 = k2
      · subst hk2
        simp [metaInsert, metaLookup, hk]
      · simp [metaInsert, metaLookup, hk, hk2, ih]

/-- C7 (counterexample): the source file named `".md"` passes main's
`.md` filter, supplies no metadata, and its back-filled title is the
empty string, so the resolved metadata does not contain a non-empty
`"title"` value. -/
theorem C7_counterexample :
    ¬ ∃ s, metaLookup "title" (backfill metaEmpty ⟨".md", 0⟩) = some (MetaVal.str s) ∧
      s ≠ "" := by
  intro h
  obtain ⟨s, hs, hne⟩ := h
  rw [show metaLookup "title" (backfill metaEmpty ⟨".md", 0⟩) = some (MetaVal.str "") from rfl]
    at hs
  simp only [Option.some.injEq, MetaVal.str.injEq] at hs
  exact hne hs.symm

/-- The `"title"` binding after back-fill: a supplied value is kept
unchanged, an absent one is filled with the filename-derived title. -/
theorem metaLookup_title_backfill (meta : Meta) (info : FileInfo) :
    metaLookup "title" (backfill meta info) =
      (match metaLookup "title" meta with
        | some v => some v
        | none => some (MetaVal.str (deriveTitle info.name))) := by
  unfold backfill
  cases ht : metaLookup "title" meta with
  | some v =>
    cases hm : metaLookup "time" meta with
    | some w => simp [ht, hm]
    | none =>
      simp [ht, hm,
        metaLookup_metaInsert_other "time" "title" (MetaVal.time info.modTime) meta
          (by decide)]
  | none =>
    have hTimeM1 : metaLookup "time"
        (metaInsert "title" (MetaVal.str (deriveTitle info.name)) meta) =
        metaLookup "time" meta :=
      metaLookup_metaInsert_other "title" "time" (MetaVal.str (deriveTitle info.name)) meta
        (by decide)
    cases hm : metaLookup "time" meta with
    | some w => simp [ht, hTimeM1, hm, metaLookup_metaInsert_self]
    | none =>
      simp [ht, hTimeM1, hm,
        metaLookup_metaInsert_other "time" "title" (MetaVal.time info.modTime) _ (by decide),
        metaLookup_metaInsert_self]

/-- The `"time"` binding after back-fill: a supplied value is kept
unchanged, an absent one is filled with the source's modification
time. -/
theorem metaLookup_time_backfill (meta : Meta) (info : FileInfo) :
    metaLookup "time" (backfill meta info) =
      (match metaLookup "time" meta with
        | some v => some v
        | none => some (MetaVal.time info.modTime)) := by
  unfold backfill
  cases ht : metaLookup "title" meta with
  | some v =>
    cases hm : metaLookup "time" meta with
    | some w => simp [ht, hm]
    | none => simp [ht, hm, metaLookup_metaInsert_self]
  | none =>
    have hTimeM1 : metaLookup "time"
        (metaInsert "title" (MetaVal.str (deriveTitle info.name)) meta) =
        metaLookup "time" meta :=
      metaLookup_metaInsert_other "title" "time" (MetaVal.str (deriveTitle info.name)) meta
        (by decide)
    cases hm : metaLookup "time" meta with
    | some w => simp [ht, hTimeM1, hm]
    | none => simp [ht, hTimeM1, hm, metaLookup_metaInsert_self]

/-- C7 (amended): after default back-fill the resolved metadata always
contains a `"title"` binding and a `"time"` binding, for every
combination of supplied keys: any source-supplied value — including an
empty title — is kept unchanged, a missing title is back-filled with
the source filename minus its extension (non-empty whenever that stem
is non-empty), and a missing time is back-filled with the source
file's modification time. -/
theorem C7_amended (meta : Meta) (info : FileInfo) :
    (∃ v, metaLookup "title" (backfill meta info) = some v) ∧
      (∃ v, metaLookup "time" (backfill meta info) = some v) ∧
      (metaLookup "title" meta = none →
        metaLookup "title" (backfill meta info) =
          some (MetaVal.str (deriveTitle info.name))) ∧
      (∀ v, metaLookup "title" meta = some v →
        metaLookup "title" (backfill meta info) = some v) ∧
      (metaLookup "time" meta = none →
        metaLookup "time" (backfill meta info) = some (MetaVal.time info.modTime)) ∧
      (∀ v, metaLookup "time" meta = some v →
        metaLookup "time" (backfill meta info) = some v) ∧
      (metaLookup "title" meta = none → deriveTitle info.name ≠ "" →
        ∃ s, metaLookup "title" (backfill meta info) = some (MetaVal.str s) ∧ s ≠ "") := by
  have hti := metaLookup_title_backfill meta info
  have htm := metaLookup_time_backfill meta info
  refine ⟨?_, ?_, ?_, ?_, ?_, ?_, ?_⟩
  · rw [hti]
    cases metaLookup "title" meta <;> exact ⟨_, rfl⟩
  · rw [htm]
    cases metaLookup "time" meta <;> exact ⟨_, rfl⟩
  · intro h
    rw [hti, h]
  · intro v h
    rw [hti, h]
  · intro h
    rw [htm, h]
  · intro v h
    rw [htm, h]
  · intro h hne
    exact ⟨deriveTitle info.name, by rw [hti, h], hne⟩

/-- Witness for C7: a document supplying neither key gets the derived
title and the modification time; a document supplying an empty title
keeps it, while its time is still back-filled. -/
theorem C7_witness :
    metaLookup "title" (backfill metaEmpty ⟨"post.md", 7⟩) = some (MetaVal.str "post") ∧
      metaLookup "time" (backfill metaEmpty ⟨"post.md", 7⟩) = some (MetaVal.time 7) ∧
      metaLookup "title" (backfill [("title", MetaVal.str "")] ⟨"post.md", 7⟩) =
        some (MetaVal.str "") ∧
      metaLookup "time" (backfill [("title", MetaVal.str "")] ⟨"post.md", 7⟩) =
        some (MetaVal.time 7) := by
  refine ⟨?_, ?_, ?_, ?_⟩
  · have h := (C7_amended metaEmpty ⟨"post.md", 7⟩).2.2.1 rfl
    rw [h]
    rfl
  · exact (C7_amended metaEmpty ⟨"post.md", 7⟩).2.2.2.2.1 rfl
  · exact (C7_amended [("title", MetaVal.str "")] ⟨"post.md", 7⟩).2.2.2.1
      (MetaVal.str "") rfl
  · exact (C7_amended [("title", MetaVal.str "")] ⟨"post.md", 7⟩).2.2.2.2.1 rfl

/-- Once the descent has produced nil, every further key keeps it
nil. -/
theorem foldl_descendStep_none (rest : List String) :
    rest.foldl descendStep none = none := by
  induction rest with
  | nil => rfl
  | cons k rest ih => simpa [descendStep] using ih

/-- The accessor loop computes the spec's key-by-key descent for every
non-empty key sequence. -/
theorem pageGetMeta_eq_spec (keys : List String) (h : keys ≠ []) :
    ∀ meta : Meta, PageInfo.getMeta meta keys = .val (specLookupPath meta keys) := by
  induction keys with
  | nil => exact absurd rfl h
  | cons k rest ih =>
    intro meta
    cases rest with
    | nil => rfl
    | cons k2 rest2 =>
      cases hv : metaLookup k meta with
      | none =>
        rw [show PageInfo.getMeta meta (k :: k2 :: rest2) = .val none by
          simp [PageInfo.getMeta, hv]]
        simp [specLookupPath, hv, descendStep, foldl_descendStep_none]
      | some v =>
        cases v with
        | map m =>
          have hrec := ih (by simp) m
          rw [show PageInfo.getMeta meta (k :: k2 :: rest2) =
            PageInfo.getMeta m (k2 :: rest2) by simp [PageInfo.getMeta, hv]]
          rw [hrec]
          simp [specLookupPath, hv, descendStep]
        | str s =>
          rw [show PageInfo.getMeta meta (k :: k2 :: rest2) = .val none by
            simp [PageInfo.getMeta, hv]]
          simp [specLookupPath, hv, descendStep, foldl_descendStep_none]
        | time t =>
          rw [show PageInfo.getMeta meta (k :: k2 :: rest2) = .val none by
            simp [PageInfo.getMeta, hv]]
          simp [specLookupPath, hv, descendStep, foldl_descendStep_none]
        | other tag =>
          rw [show PageInfo.getMeta meta (k :: k2 :: rest2) = .val none by
            simp [PageInfo.getMeta, hv]]
          simp [specLookupPath, hv, descendStep, foldl_descendStep_none]

/-- C10: the variadic nested-metadata accessor never panics on a
non-empty key sequence — the comma-ok assertion turns absent keys and
non-mapping intermediates into a nil result — it returns exactly the
spec's key-by-key descent, and it panics precisely on the empty key
sequence. -/
theorem C10_accessor_safe (meta : Meta) (keys : List String) (h : keys ≠ []) :
    PageInfo.getMeta meta keys ≠ .panicked ∧
      PageInfo.getMeta meta keys = .val (specLookupPath meta keys) ∧
      PageInfo.getMeta meta [] = .panicked := by
  have heq := pageGetMeta_eq_spec keys h meta
  refine ⟨?_, heq, rfl⟩
  rw [heq]
  intro hc
  exact GetRes.noConfusion hc

/-- Witness for C10: descending through an absent nested mapping
returns nil rather than panicking. -/
theorem C10_witness :
    (["a", "b"] : List String) ≠ [] ∧
      PageInfo.getMeta [("a", MetaVal.str "x")] ["a", "b"] ≠ .panicked ∧
      PageInfo.getMeta [("a", MetaVal.str "x")] ["a", "b"] =
        .val (specLookupPath [("a", MetaVal.str "x")] ["a", "b"]) := by
  have h := C10_accessor_safe [("a", MetaVal.str "x")] ["a", "b"] (by simp)
  exact ⟨by simp, h.1, h.2.1⟩

/-- A walk over a tree without any candidate metadata block changes
neither the state nor the tree and does not terminate early. -/
theorem gmWalk_nocand (comment : String → Option String)
    (decode : String → Meta → Except Nat Meta) (unlink : Bool) (t : BNode)
    (h : firstCandLit comment t = none) :
    ∀ s : GMSt, gmWalk comment decode unlink s t = (s, false, t) := by
  induction t with
  | nil => intro s; rfl
  | node ty lit fc nx ihf ihn =>
    intro s
    by_cases hty : ty = MdType.htmlBlock
    · subst hty
      cases hc : comment lit with
      | none =>
        have hn : firstCandLit comment nx = none := by
          simpa [firstCandLit, hc] using h
        simp [gmWalk, hc, ihn hn s]
      | some c =>
        by_cases hpre : bytesHasPrefix "meta" c = true
        · exfalso
          simp [firstCandLit, hc, hpre] at h
        · have hn : firstCandLit comment nx = none := by
            simpa [firstCandLit, hc, hpre] using h
          simp [gmWalk, hc, hpre, ihn hn s]
    · have hsplit : firstCandLit comment fc = none ∧ firstCandLit comment nx = none := by
        cases hfc : firstCandLit comment fc with
        | some c =>
          exfalso
          simp [firstCandLit, hty, hfc] at h
        | none =>
          refine ⟨rfl, ?_⟩
          simpa [firstCandLit, hty, hfc] using h
      simp [gmWalk, hty, ihf hsplit.1 s, ihn hsplit.2 s]

/-- With `unlink = false` the walk never modifies the tree, whatever
the state, the comments and the decoder do. -/
theorem gmWalk_false_tree (comment : String → Option String)
    (decode : String → Meta → Except Nat Meta) (t : BNode) :
    ∀ s : GMSt, (gmWalk comment decode false s t).2.2 = t := by
  induction t with
  | nil => intro s; rfl
  | node ty lit fc nx ihf ihn =>
    intro s
    by_cases hty : ty = MdType.htmlBlock
    · subst hty
      cases hc : comment lit with
      | none => simp [gmWalk, hc, ihn s]
      | some c =>
        by_cases hpre : bytesHasPrefix "meta" c = true
        · cases hd : decode (commentPayload c) s.meta with
          | error e => simp [gmWalk, hc, hpre, hd]
          | ok m => simp [gmWalk, hc, hpre, hd]
        · simp [gmWalk, hc, hpre, ihn s]
    · by_cases hterm : (gmWalk comment decode false s fc).2.1 = true
      · simp [gmWalk, hty, hterm, ihf s]
      · simp [gmWalk, hty, hterm, ihf s, ihn (gmWalk comment decode false s fc).1]

/-- Reaching the first candidate block: when its payload decodes into
the current map successfully, the walk terminates with exactly that
decoded map, an unchanged `werr`, and — when unlinking — the tree with
exactly that one node removed. -/
theorem gmWalk_first (comment : String → Option String)
    (decode : String → Meta → Except Nat Meta) (unlink : Bool) (c : String) (m : Meta)
    (t : BNode) (hfc : firstCandLit comment t = some c) :
    ∀ s : GMSt, decode (commentPayload c) s.meta = .ok m →
      gmWalk comment decode unlink s t =
        (⟨m, s.werr⟩, true, if unlink then rmFirstCand comment t else t) := by
  induction t with
  | nil =>
    intro s hd
    exact absurd hfc (by simp [firstCandLit])
  | node ty lit fc nx ihf ihn =>
    intro s hd
    by_cases hty : ty = MdType.htmlBlock
    · subst hty
      cases hc : comment lit with
      | none =>
        have hn : firstCandLit comment nx = some c := by
          simpa [firstCandLit, hc] using hfc
        have hrec := ihn hn s hd
        rcases Bool.eq_false_or_eq_true unlink with hu | hu <;> subst hu <;>
          simp [gmWalk, hc, hrec, rmFirstCand]
      | some c0 =>
        by_cases hpre : bytesHasPrefix "meta" c0 = true
        · have hcc : c0 = c := by
            simpa [firstCandLit, hc, hpre] using hfc
          subst hcc
          rcases Bool.eq_false_or_eq_true unlink with hu | hu <;> subst hu <;>
            simp [gmWalk, hc, hpre, hd, rmFirstCand]
        · have hn : firstCandLit comment nx = some c := by
            simpa [firstCandLit, hc, hpre] using hfc
          have hrec := ihn hn s hd
          rcases Bool.eq_false_or_eq_true unlink with hu | hu <;> subst hu <;>
            simp [gmWalk, hc, hpre, hrec, rmFirstCand]
    · cases hfcc : firstCandLit comment fc with
      | some c1 =>
        have hcc : c1 = c := by
          have h2 := hfc
          simp [firstCandLit, hty, hfcc] at h2
          exact h2
        subst hcc
        have hrec := ihf hfcc s hd
        rcases Bool.eq_false_or_eq_true unlink with hu | hu <;> subst hu <;>
          simp [gmWalk, hty, hrec, rmFirstCand, hfcc]
      | none =>
        have hn : firstCandLit comment nx = some c := by
          have h2 := hfc
          simpa [firstCandLit, hty, hfcc] using h2
        have hskip := gmWalk_nocand comment decode unlink fc hfcc s
        have hrec := ihn hn s hd
        rcases Bool.eq_false_or_eq_true unlink with hu | hu <;> subst hu <;>
          simp [gmWalk, hty, hskip, hrec, rmFirstCand, hfcc]

/-- C5: when the tree's first candidate metadata block (in depth-first
document order) carries comment `c` and its payload decodes
successfully, `getMeta` returns exactly that decoded mapping with no
error — the walk terminates at that block, so any tree with the same
first candidate block yields the same mapping, and the contents of
every later candidate block have no effect on the result. -/
theorem C5_first_block_wins (comment : String → Option String)
    (decode : String → Meta → Except Nat Meta) (unlink : Bool) (t : BNode)
    (c : String) (m : Meta)
    (h1 : firstCandLit comment t = some c)
    (h2 : decode (commentPayload c) metaEmpty = .ok m) :
    (getMeta comment decode unlink t).meta = m ∧
      (getMeta comment decode unlink t).werr = none ∧
      ∀ (t2 : BNode) (u2 : Bool), firstCandLit comment t2 = some c →
        (getMeta comment decode u2 t2).meta = m := by
  have hw := gmWalk_first comment decode unlink c m t h1 ⟨metaEmpty, none⟩ h2
  refine ⟨by simp [getMeta, hw], by simp [getMeta, hw], ?_⟩
  intro t2 u2 h3
  have hw2 := gmWalk_first comment decode u2 c m t2 h3 ⟨metaEmpty, none⟩ h2
  simp [getMeta, hw2]

/-- Witness for C5: a concrete two-block tree whose first candidate is
decoded; the second block's contents do not appear in the result. -/
theorem C5_witness :
    firstCandLit (fun s => some s)
        (BNode.node .htmlBlock "metaX" .nil (BNode.node .htmlBlock "metaY" .nil .nil)) =
      some "metaX" ∧
      (getMeta (fun s => some s) (fun s _ => Except.ok [("k", MetaVal.str s)]) true
        (BNode.node .htmlBlock "metaX" .nil
          (BNode.node .htmlBlock "metaY" .nil .nil))).meta = [("k", MetaVal.str "X")] :=
  ⟨rfl,
    (C5_first_block_wins (fun s => some s) (fun s _ => Except.ok [("k", MetaVal.str s)]) true
      (BNode.node .htmlBlock "metaX" .nil (BNode.node .htmlBlock "metaY" .nil .nil))
      "metaX" [("k", MetaVal.str "X")] rfl rfl).1⟩

/-- C6: on a tree containing no embedded metadata block — no HTML block
whose embedded comment carries the `"meta"` prefix — `getMeta` returns
the empty (in Go: non-nil, freshly made) mapping and no error. -/
theorem C6_extract_no_block (comment : String → Option String)
    (decode : String → Meta → Except Nat Meta) (unlink : Bool) (t : BNode)
    (h : firstCandLit comment t = none) :
    (getMeta comment decode unlink t).meta = metaEmpty ∧
      (getMeta comment decode unlink t).werr = none := by
  have hw := gmWalk_nocand comment decode unlink t h ⟨metaEmpty, none⟩
  exact ⟨by simp [getMeta, hw], by simp [getMeta, hw]⟩

/-- Witness for C6: a tree with an ordinary paragraph and an HTML block
whose comment lacks the prefix. -/
theorem C6_witness :
    firstCandLit (fun s => some s)
        (BNode.node (.other 1) "text" .nil (BNode.node .htmlBlock "nope" .nil .nil)) = none ∧
      (getMeta (fun s => some s) (fun s _ => Except.ok [("k", MetaVal.str s)]) true
        (BNode.node (.other 1) "text" .nil
          (BNode.node .htmlBlock "nope" .nil .nil))).meta = metaEmpty ∧
      (getMeta (fun s => some s) (fun s _ => Except.ok [("k", MetaVal.str s)]) true
        (BNode.node (.other 1) "text" .nil
          (BNode.node .htmlBlock "nope" .nil .nil))).werr = none := by
  have h := C6_extract_no_block (fun s => some s)
    (fun s _ => Except.ok [("k", MetaVal.str s)]) true
    (BNode.node (.other 1) "text" .nil (BNode.node .htmlBlock "nope" .nil .nil)) rfl
  exact ⟨rfl, h.1, h.2⟩

/-- C9: detachment touches nothing but the metadata node.  With
`detach = false` the tree is never modified; with `detach = true` a
tree without a recognized metadata block is left entirely unchanged;
and when the first candidate block decodes successfully with
`detach = true`, the resulting tree is the original with exactly that
one node removed (`rmFirstCand` rebuilds every other node
unchanged). -/
theorem C9_detach_frame (comment : String → Option String)
    (decode : String → Meta → Except Nat Meta) (t : BNode) (c : String) (m : Meta)
    (h1 : firstCandLit comment t = some c)
    (h2 : decode (commentPayload c) metaEmpty = .ok m) :
    (getMeta comment decode true t).tree = rmFirstCand comment t ∧
      (∀ t2 : BNode, (getMeta comment decode false t2).tree = t2) ∧
      (∀ t3 : BNode, firstCandLit comment t3 = none →
        (getMeta comment decode true t3).tree = t3) := by
  refine ⟨?_, ?_, ?_⟩
  · have hw := gmWalk_first comment decode true c m t h1 ⟨metaEmpty, none⟩ h2
    simp [getMeta, hw]
  · intro t2
    have hw := gmWalk_false_tree comment decode t2 ⟨metaEmpty, none⟩
    simp [getMeta, hw]
  · intro t3 h3
    have hw := gmWalk_nocand comment decode true t3 h3 ⟨metaEmpty, none⟩
    simp [getMeta, hw]

/-- Witness for C9: detaching from a concrete tree removes exactly the
metadata node. -/
theorem C9_witness :
    firstCandLit (fun s => some s)
        (BNode.node (.other 1) "text" .nil (BNode.node .htmlBlock "metaX" .nil .nil)) =
      some "metaX" ∧
      (getMeta (fun s => some s) (fun s _ => Except.ok [("k", MetaVal.str s)]) true
          (BNode.node (.other 1) "text" .nil
            (BNode.node .htmlBlock "metaX" .nil .nil))).tree =
        rmFirstCand (fun s => some s)
          (BNode.node (.other 1) "text" .nil (BNode.node .htmlBlock "metaX" .nil .nil)) := by
  have h := C9_detach_frame (fun s => some s)
    (fun s _ => Except.ok [("k", MetaVal.str s)])
    (BNode.node (.other 1) "text" .nil (BNode.node .htmlBlock "metaX" .nil .nil))
    "metaX" [("k", MetaVal.str "X")] rfl rfl
  exact ⟨rfl, h.1⟩

/-- Once the error writer stores an error, running any further writes
leaves its state untouched (no underlying write ever happens again). -/
theorem ewRun_frozen (u : Nat → Nat × Option Nat) (ws : List String) :
    ∀ (s : EW) (e : Nat), s.err = some e → ewRun u ws s = s := by
  induction ws with
  | nil => intro s e h; rfl
  | cons d ws ih =>
    intro s e h
    have hstep : (ewWrite u s d).1 = s := by
      simp [ewWrite, h]
    simp only [ewRun, List.foldl_cons]
    rw [hstep]
    exact ih s e h

/-- Running writes from a clean error writer stores exactly the first
error the underlying writer reports. -/
theorem ewRun_first_err (u : Nat → Nat × Option Nat) (ws : List String) :
    ∀ c : Nat, (ewRun u ws ⟨c, none⟩).err = firstErrFrom u c ws.length := by
  induction ws with
  | nil => intro c; rfl
  | cons d ws ih =>
    intro c
    cases hr : (u c).2 with
    | none =>
      have hstep : (ewWrite u ⟨c, none⟩ d).1 = ⟨c + 1, none⟩ := by
        simp [ewWrite, hr]
      simp only [ewRun, List.foldl_cons]
      rw [hstep]
      rw [show ws.foldl (fun s d => (ewWrite u s d).1) (⟨c + 1, none⟩ : EW) =
        ewRun u ws ⟨c + 1, none⟩ from rfl]
      rw [ih (c + 1)]
      simp [firstErrFrom, hr]
    | some e =>
      have hstep : (ewWrite u ⟨c, none⟩ d).1 = ⟨c + 1, some e⟩ := by
        simp [ewWrite, hr]
      simp only [ewRun, List.foldl_cons]
      rw [hstep]
      rw [show ws.foldl (fun s d => (ewWrite u s d).1) (⟨c + 1, some e⟩ : EW) =
        ewRun u ws ⟨c + 1, some e⟩ from rfl]
      rw [ewRun_frozen u ws ⟨c + 1, some e⟩ e rfl]
      simp [firstErrFrom, hr]

/-- C8: an error writer that has stored an error never writes to the
underlying writer again — every further `Write` returns `(0, err)` with
the same stored error and an unchanged state — and `Render` returns
exactly the first error the underlying writer reported during the
render's write sequence (nil if none failed). -/
theorem C8_err_writer (u : Nat → Nat × Option Nat) (ws : List String) (s : EW)
    (d : String) (e : Nat) (h : s.err = some e) :
    ewWrite u s d = (s, 0, some e) ∧
      renderResult u ws = firstErrFrom u 0 ws.length := by
  refine ⟨by simp [ewWrite, h], ?_⟩
  unfold renderResult
  exact ewRun_first_err u ws 0

/-- Witness for C8 at a concrete underlying writer failing on its
second call. -/
theorem C8_witness :
    (⟨5, some 9⟩ : EW).err = some 9 ∧
      ewWrite (fun i => (1, if i = 1 then some 7 else none)) ⟨5, some 9⟩ "x" =
        (⟨5, some 9⟩, 0, some 9) ∧
      renderResult (fun i => (1, if i = 1 then some 7 else none)) ["a", "b", "c"] =
        firstErrFrom (fun i => (1, if i = 1 then some 7 else none)) 0 3 := by
  have h := C8_err_writer (fun i => (1, if i = 1 then some 7 else none)) ["a", "b", "c"]
    ⟨5, some 9⟩ "x" 9 rfl
  exact ⟨rfl, h.1, h.2⟩

/-- If any document's in-memory rendering fails, the run exits before
the generate phase and performs no destination-file operation at
all. -/
theorem runPipeline_load_error (load : Nat → Except Nat String) (docs : List DocSpec)
    (dstStat : String → StatResult) (createRes : String → Option Nat)
    (pageWrap : String → List String × Option Nat) (d : DocSpec) (hd : d ∈ docs)
    (e : Nat) (he : load d.id = .error e) :
    runPipeline load docs dstStat createRes pageWrap = [] := by
  have hmem : e ∈ loadPhaseErrs load docs := by
    unfold loadPhaseErrs
    refine List.mem_filterMap.mpr ⟨d, hd, ?_⟩
    rw [he]
  have hne : loadPhaseErrs load docs ≠ [] := List.ne_nil_of_mem hmem
  unfold runPipeline
  rw [if_neg hne]

/-- Every chunk ever written to a destination file comes from the page
template applied to the fully rendered in-memory content of some
successfully loaded document with that destination. -/
theorem runPipeline_write_source (load : Nat → Except Nat String) (docs : List DocSpec)
    (dstStat : String → StatResult) (createRes : String → Option Nat)
    (pageWrap : String → List String × Option Nat) (p chunk : String)
    (hmem : FsOp.write p chunk ∈ runPipeline load docs dstStat createRes pageWrap) :
    ∃ d2 ∈ docs, d2.dst = p ∧
      ∃ cont, load d2.id = .ok cont ∧ chunk ∈ (pageWrap cont).1 := by
  unfold runPipeline at hmem
  by_cases hle : loadPhaseErrs load docs = []
  · rw [if_pos hle] at hmem
    obtain ⟨d2, hd2, hop⟩ := List.mem_flatMap.mp hmem
    refine ⟨d2, hd2, ?_⟩
    unfold docTrace at hop
    cases hl : load d2.id with
    | error e =>
      rw [hl] at hop
      simp at hop
    | ok cont =>
      rw [hl] at hop
      cases hst : dstStat d2.dst with
      | ok tmod =>
        rw [hst] at hop
        simp [genWorker, fileExists] at hop
      | statErr e2 =>
        rw [hst] at hop
        simp [genWorker, fileExists] at hop
      | notExist =>
        rw [hst] at hop
        cases hcr : createRes d2.dst with
        | some e2 =>
          simp [genWorker, fileExists, hcr] at hop
        | none =>
          simp [genWorker, fileExists, hcr, List.mem_map] at hop
          exact ⟨hop.2, cont, rfl, hop.1⟩
  · rw [if_neg hle] at hmem
    simp at hmem

/-- C4: for a document whose processing fails at any render pass, no
partially rendered content reaches its destination file.  A body-pass
or template-pass failure aborts `LoadPage` in memory and the run exits
before the generate phase, so the destination is never created; and
whatever is written during the generate phase consists of the `create`
followed by chunks of the page template executed over a fully rendered
in-memory content. -/
theorem C4_no_partial_output (mdRender : Nat → Except Nat String)
    (tmplParse : String → Except Nat Nat) (tmplExec : Nat → Except Nat String)
    (docs : List DocSpec) (dstStat : String → StatResult)
    (createRes : String → Option Nat) (pageWrap : String → List String × Option Nat)
    (d : DocSpec) (hd : d ∈ docs) :
    (∀ e, renderPage mdRender tmplParse tmplExec d.id = .error e →
      runPipeline (renderPage mdRender tmplParse tmplExec) docs dstStat createRes
        pageWrap = []) ∧
      (∀ p chunk,
        FsOp.write p chunk ∈
            runPipeline (renderPage mdRender tmplParse tmplExec) docs dstStat createRes
              pageWrap →
          ∃ d2 ∈ docs, d2.dst = p ∧
            ∃ cont, renderPage mdRender tmplParse tmplExec d2.id = .ok cont ∧
              chunk ∈ (pageWrap cont).1) := by
  constructor
  · intro e he
    exact runPipeline_load_error (renderPage mdRender tmplParse tmplExec) docs dstStat
      createRes pageWrap d hd e he
  · intro p chunk hmem
    exact runPipeline_write_source (renderPage mdRender tmplParse tmplExec) docs dstStat
      createRes pageWrap p chunk hmem

/-- Witness for C4 at a concrete failing document. -/
theorem C4_witness :
    (⟨0, "a.html"⟩ : DocSpec) ∈ [(⟨0, "a.html"⟩ : DocSpec)] ∧
      runPipeline
        (renderPage (fun _ => Except.error 7) (fun _ => Except.ok 0) (fun _ => Except.ok ""))
        [⟨0, "a.html"⟩] (fun _ => StatResult.notExist) (fun _ => none)
        (fun c => ([c], none)) = [] := by
  refine ⟨by simp, ?_⟩
  exact (C4_no_partial_output (fun _ => Except.error 7) (fun _ => Except.ok 0)
    (fun _ => Except.ok "") [⟨0, "a.html"⟩] (fun _ => StatResult.notExist) (fun _ => none)
    (fun c => ([c], none)) ⟨0, "a.html"⟩ (by simp)).1 7 rfl
